import Mathlib

/-!
Shallow embedding of `scripts/rebalance_portfolio.py`.

Python dicts (`holdings`, `live_prices`, the weights dict) are modelled as
association lists `List (String × _)` with first-match lookup; currency
amounts and share counts are exact integers (`ℤ`), mirroring the minor-unit
integers of the source; weights and the weight ceiling are exact rationals
(`ℚ`), the exact-arithmetic reading of the source's real-number weight
computation.  Fallible code (`compute_weights` raising `RuntimeError`)
returns `Except String _`.
-/

/-- A ledger transaction record.  Optional fields mirror `tx.get(...)` on a
JSON object: a missing key is `none`. -/
structure Transaction where
  date : Option String
  ticker : Option String
  ttype : Option String
  shares : ℤ
  priceCents : ℤ
deriving DecidableEq

/-- Python truthiness of an optional string: `None` and `""` are falsy. -/
def truthy : Option String → Bool
  | none => false
  | some s => s != ""

/-- Lexicographic strict comparison of char lists, the order Python uses on
strings (by code point).  A structural recursion so that concrete ledgers
evaluate inside the kernel; `strLtb_iff` below identifies it with the
mathematical string order. -/
def listLtb : List Char → List Char → Bool
  | _, [] => false
  | [], _ :: _ => true
  | a :: as, b :: bs => decide (a < b) || (decide (a = b) && listLtb as bs)

/-- `a < b` on Python strings (used for the `tx_date > cut_off` check). -/
def strLtb (a b : String) : Bool := listLtb a.data b.data

/-- Python `str.upper()` on the ASCII strings of the ledger: uppercase each
character. -/
def strUpper (s : String) : String := String.mk (s.data.map Char.toUpper)

/-- First-match association-list lookup, the model of Python `dict.get`. -/
def dictGet {β : Type} : List (String × β) → String → Option β
  | [], _ => none
  | p :: rest, t => if p.1 = t then some p.2 else dictGet rest t

/-- `holdings[ticker] = holdings.get(ticker, 0) + d`: update the entry in
place when the key is present, append it otherwise. -/
def dictAdd (h : List (String × ℤ)) (t : String) (d : ℤ) : List (String × ℤ) :=
  if (dictGet h t).isSome then
    h.map (fun p => if p.1 = t then (p.1, p.2 + d) else p)
  else h ++ [(t, d)]

/-- Replay state: the holdings dict and the cash balance in cents. -/
abbrev RState := List (String × ℤ) × ℤ

/-- The body of the replay loop after the cutoff-date check: validity
checks, then the BUY / SELL / unknown-type dispatch
(`compute_holdings_and_cash`, lines 65-85). -/
def applyValidTx (st : RState) (tx : Transaction) : RState :=
  let ttype := strUpper (tx.ttype.getD "")
  if ¬ truthy tx.ticker ∨ tx.shares ≤ 0 ∨ tx.priceCents < 0 then st
  else
    let ticker := tx.ticker.getD ""
    let amount := tx.shares * tx.priceCents
    if ttype = "BUY" then (dictAdd st.1 ticker tx.shares, st.2 - amount)
    else if ttype = "SELL" then (dictAdd st.1 ticker (-tx.shares), st.2 + amount)
    else st

/-- One iteration of the replay loop: skip when the date is truthy and
strictly after the cutoff, otherwise run the loop body. -/
def applyTx (cut_off : String) (st : RState) (tx : Transaction) : RState :=
  if truthy tx.date && strLtb cut_off (tx.date.getD "") then st
  else applyValidTx st tx

/-- `compute_holdings_and_cash`: fold the ledger into net share counts and
cash, substituting the sentinel `"9999-12-31"` for a missing cutoff. -/
def compute_holdings_and_cash (startingCashCents : ℤ) (transactions : List Transaction)
    (as_of_date_str : Option String) : RState :=
  let cut_off := as_of_date_str.getD "9999-12-31"
  transactions.foldl (applyTx cut_off) ([], startingCashCents)

/-- Share count recorded for a ticker, 0 when absent (`holdings.get(t, 0)`). -/
def getOrZero (h : List (String × ℤ)) (t : String) : ℤ := (dictGet h t).getD 0

/-- Sum of `price * shares` over the tickers that have a known price
(the first loop of `compute_weights`). -/
def positionsNav : List (String × ℤ) → List (String × ℤ) → ℤ
  | [], _ => 0
  | ts :: rest, prices =>
    (match dictGet prices ts.1 with
     | none => 0
     | some p => p * ts.2) + positionsNav rest prices

/-- The weights dict built by the second loop of `compute_weights`:
one entry per priced ticker, value `pos_nav / total_nav`. -/
def weightsList (holdings : List (String × ℤ)) (prices : List (String × ℤ))
    (total : ℤ) : List (String × ℚ) :=
  holdings.filterMap (fun ts =>
    (dictGet prices ts.1).map (fun p => (ts.1, ((p * ts.2 : ℤ) : ℚ) / (total : ℚ))))

/-- The message of the `RuntimeError` raised on non-positive NAV. -/
def navErrorMsg (total : ℤ) : String :=
  "Total NAV is non-positive (" ++ toString total ++ ")."

/-- Result triple of `compute_weights`. -/
structure WeightsResult where
  weights : List (String × ℚ)
  totalNavCents : ℤ
  positionsNavCents : ℤ
deriving DecidableEq

/-- `compute_weights`: positions NAV, total NAV, the non-positive-NAV
guard, and the per-ticker weight dict. -/
def compute_weights (holdings : List (String × ℤ)) (cash_cents : ℤ)
    (live_prices : List (String × ℤ)) : Except String WeightsResult :=
  let positions_nav_cents := positionsNav holdings live_prices
  let total_nav_cents := positions_nav_cents + cash_cents
  if total_nav_cents ≤ 0 then Except.error (navErrorMsg total_nav_cents)
  else Except.ok ⟨weightsList holdings live_prices total_nav_cents,
                  total_nav_cents, positions_nav_cents⟩

/-- A proposed rebalance trade, mirroring the dict appended to `trades`. -/
structure TradeProposal where
  ticker : String
  ttype : String
  shares : ℤ
  priceCents : ℤ
  oldWeight : ℚ
  targetAbsWeight : ℚ
deriving DecidableEq

/-- Python `int(...)` on a real value: truncation toward zero. -/
def intTrunc (q : ℚ) : ℤ := if 0 ≤ q then ⌊q⌋ else ⌈q⌉

/-- `math.copysign(x, y)` on integers: the magnitude of `x` with the sign
of `y` (positive when `y = 0`, matching `copysign` on `+0.0`). -/
def copysignInt (x y : ℤ) : ℤ := if y < 0 then -|x| else |x|

/-- The body of the trade loop of `build_rebalance_trades` for one holdings
entry: `none` means the `continue` branches, `some` the appended trade. -/
def tradeFor (weights : List (String × ℚ)) (total_nav_cents : ℤ)
    (live_prices : List (String × ℤ)) (max_abs_weight : ℚ)
    (entry : String × ℤ) : Option TradeProposal :=
  let ticker := entry.1
  let net_shares := entry.2
  if net_shares = 0 then none else
  match dictGet live_prices ticker with
  | none => none
  | some price =>
    let weight := (dictGet weights ticker).getD 0
    let abs_weight := |weight|
    if abs_weight ≤ max_abs_weight then none else
    let pos_nav_cents := price * net_shares
    let target_nav_cents := copysignInt (intTrunc (max_abs_weight * (total_nav_cents : ℚ))) pos_nav_cents
    let desired_abs_shares := ⌊((|target_nav_cents| : ℤ) : ℚ) / (price : ℚ)⌋
    let current_abs_shares := |net_shares|
    if desired_abs_shares ≥ current_abs_shares then none else
    let shares_to_trade_abs := current_abs_shares - desired_abs_shares
    if shares_to_trade_abs ≤ 0 then none else
    let trade_type := if net_shares > 0 then "SELL" else "BUY"
    some ⟨ticker, trade_type, shares_to_trade_abs, price, weight, max_abs_weight⟩

/-- `build_rebalance_trades`: propagate the `compute_weights` error,
otherwise collect the per-ticker trades in holdings order. -/
def build_rebalance_trades (holdings : List (String × ℤ)) (cash_cents : ℤ)
    (live_prices : List (String × ℤ)) (max_abs_weight : ℚ) :
    Except String (List TradeProposal) :=
  match compute_weights holdings cash_cents live_prices with
  | Except.error e => Except.error e
  | Except.ok wr =>
      Except.ok (holdings.filterMap
        (tradeFor wr.weights wr.totalNavCents live_prices max_abs_weight))

/-- The trades emitted by a `build_rebalance_trades` run (empty on error). -/
def tradesOf (r : Except String (List TradeProposal)) : List TradeProposal :=
  match r with
  | Except.ok l => l
  | Except.error _ => []

/-- Replace the recorded share count of ticker `t` by `v`, leaving every
other entry alone: the hypothetical post-trade holdings dict. -/
def setShares (holdings : List (String × ℤ)) (t : String) (v : ℤ) :
    List (String × ℤ) :=
  holdings.map (fun q => if q.1 = t then (q.1, v) else q)

/-- Share count after applying a trade: SELL subtracts, BUY adds. -/
def newShares (tr : TradeProposal) (s : ℤ) : ℤ :=
  if tr.ttype = "SELL" then s - tr.shares else s + tr.shares

/-- Cash after applying a trade at its quoted price: SELL credits
`shares * price`, BUY debits it. -/
def newCash (tr : TradeProposal) (cash : ℤ) : ℤ :=
  if tr.ttype = "SELL" then cash + tr.shares * tr.priceCents
  else cash - tr.shares * tr.priceCents

/-- The date-cutoff skip condition of the replay loop
(`if tx_date and tx_date > cut_off: continue`). -/
def dateSkip (cut_off : String) (tx : Transaction) : Bool :=
  truthy tx.date && strLtb cut_off (tx.date.getD "")

/-- A transaction that passes every validity check of the replay loop:
truthy ticker, positive shares, non-negative price, recognized type. -/
def txValid (tx : Transaction) : Bool :=
  truthy tx.ticker && decide (0 < tx.shares) && decide (0 ≤ tx.priceCents) &&
    (decide (strUpper (tx.ttype.getD "") = "BUY") ||
     decide (strUpper (tx.ttype.getD "") = "SELL"))

/-- Net change a valid transaction makes to its ticker's share count. -/
def sharesDelta (tx : Transaction) : ℤ :=
  if strUpper (tx.ttype.getD "") = "BUY" then tx.shares else -tx.shares

/-- Net change a valid transaction makes to the cash balance. -/
def cashDelta (tx : Transaction) : ℤ :=
  if strUpper (tx.ttype.getD "") = "BUY" then -(tx.shares * tx.priceCents)
  else tx.shares * tx.priceCents

/-- Replay step parameterized by an arbitrary skip predicate; `applyTx c`
is `stepWith (dateSkip c)` and unfiltered application is
`stepWith (fun _ => false)`. -/
def stepWith (p : Transaction → Bool) (st : RState) (tx : Transaction) : RState :=
  if p tx then st else applyValidTx st tx

/-- A `YYYY-MM-DD` calendar-day string (as a char list): four digits, two
separators, month `01`-`12`, day `01`-`31`.  This is the shape the data
model prescribes for transaction dates. -/
def isIsoDateList : List Char → Bool
  | [y1, y2, y3, y4, c1, m1, m2, c2, d1, d2] =>
      (decide ('0' ≤ y1) && decide (y1 ≤ '9')) &&
      (decide ('0' ≤ y2) && decide (y2 ≤ '9')) &&
      (decide ('0' ≤ y3) && decide (y3 ≤ '9')) &&
      (decide ('0' ≤ y4) && decide (y4 ≤ '9')) &&
      decide (c1 = '-') && decide (c2 = '-') &&
      ((decide (m1 = '0') && decide ('1' ≤ m2) && decide (m2 ≤ '9')) ||
       (decide (m1 = '1') && decide ('0' ≤ m2) && decide (m2 ≤ '2'))) &&
      ((decide (d1 = '0') && decide ('1' ≤ d2) && decide (d2 ≤ '9')) ||
       (decide ('1' ≤ d1) && decide (d1 ≤ '2') && decide ('0' ≤ d2) && decide (d2 ≤ '9')) ||
       (decide (d1 = '3') && decide ('0' ≤ d2) && decide (d2 ≤ '1')))
  | _ => false

/-- A `YYYY-MM-DD` calendar-day string. -/
def isIsoDate (s : String) : Bool := isIsoDateList s.data

/-- The boundary share target of `build_rebalance_trades` for a position:
`floor(abs(copysign(int(maxW * totalNav), posNav)) / price)`. -/
def desiredAbsShares (max_abs_weight : ℚ) (total_nav_cents : ℤ)
    (price net_shares : ℤ) : ℤ :=
  ⌊((|copysignInt (intTrunc (max_abs_weight * (total_nav_cents : ℚ))) (price * net_shares)| : ℤ) : ℚ) /
    (price : ℚ)⌋

/-! ## Helper lemmas: the string order -/

theorem listLtb_iff_lex : ∀ (as bs : List Char), listLtb as bs = true ↔ List.Lex (· < ·) as bs
  | [], [] => by simp [listLtb]
  | [], b :: bs => by simp [listLtb]; exact List.Lex.nil
  | a :: as, [] => by simp [listLtb]
  | a :: as, b :: bs => by
    simp only [listLtb, Bool.or_eq_true, Bool.and_eq_true, decide_eq_true_eq]
    constructor
    · rintro (h | ⟨rfl, h⟩)
      · exact List.Lex.rel h
      · exact List.Lex.cons ((listLtb_iff_lex as bs).mp h)
    · intro h
      cases h with
      | cons h => exact Or.inr ⟨rfl, (listLtb_iff_lex as bs).mpr h⟩
      | rel h => exact Or.inl h

/-- `strLtb` computes the lexicographic string order. -/
theorem strLtb_iff (a b : String) : strLtb a b = true ↔ a < b := by
  rw [String.lt_iff_toList_lt]
  exact listLtb_iff_lex a.data b.data

theorem strLtb_eq_false_iff (a b : String) : strLtb a b = false ↔ ¬ a < b := by
  rw [← strLtb_iff a b]
  simp

theorem listLtb_cons_false {a b : Char} {as bs : List Char} (h1 : b ≤ a)
    (h2 : a = b → listLtb as bs = false) : listLtb (a :: as) (b :: bs) = false := by
  simp only [listLtb, Bool.or_eq_false_iff, decide_eq_false_iff_not, not_lt,
    Bool.and_eq_false_iff]
  refine ⟨h1, ?_⟩
  by_cases he : a = b
  · exact Or.inr (h2 he)
  · exact Or.inl (by simpa using he)

/-- No calendar-day string compares strictly above the sentinel
`"9999-12-31"`. -/
theorem isoList_not_after_sentinel : ∀ cs : List Char, isIsoDateList cs = true →
    listLtb ['9', '9', '9', '9', '-', '1', '2', '-', '3', '1'] cs = false
  | [y1, y2, y3, y4, c1, m1, m2, c2, d1, d2], h => by
    simp only [isIsoDateList, Bool.and_eq_true, Bool.or_eq_true, decide_eq_true_eq] at h
    obtain ⟨⟨⟨⟨⟨⟨⟨hy1, hy2⟩, hy3⟩, hy4⟩, hc1⟩, hc2⟩, hm⟩, hd⟩ := h
    subst hc1; subst hc2
    refine listLtb_cons_false hy1.2 (fun e1 => ?_)
    refine listLtb_cons_false hy2.2 (fun e2 => ?_)
    refine listLtb_cons_false hy3.2 (fun e3 => ?_)
    refine listLtb_cons_false hy4.2 (fun e4 => ?_)
    refine listLtb_cons_false le_rfl (fun _ => ?_)
    have hm1le : m1 ≤ '1' := by
      rcases hm with ⟨⟨he, _⟩, _⟩ | ⟨⟨he, _⟩, _⟩ <;> subst he <;> decide
    refine listLtb_cons_false hm1le (fun e5 => ?_)
    have hm2le : m2 ≤ '2' := by
      rcases hm with ⟨⟨he, _⟩, _⟩ | ⟨_, hle⟩
      · exact absurd (e5.trans he) (by decide)
      · exact hle
    refine listLtb_cons_false hm2le (fun e6 => ?_)
    refine listLtb_cons_false le_rfl (fun _ => ?_)
    have hd1le : d1 ≤ '3' := by
      rcases hd with (⟨⟨he, _⟩, _⟩ | ⟨⟨⟨_, hle⟩, _⟩, _⟩) | ⟨⟨he, _⟩, _⟩
      · subst he; decide
      · exact le_trans hle (by decide)
      · subst he; exact le_rfl
    refine listLtb_cons_false hd1le (fun e8 => ?_)
    have hd2le : d2 ≤ '1' := by
      rcases hd with (⟨⟨he, _⟩, _⟩ | ⟨⟨⟨_, hle⟩, _⟩, _⟩) | ⟨_, hle⟩
      · exact absurd (e8.trans he) (by decide)
      · exact absurd ((le_of_eq e8).trans hle) (by decide)
      · exact hle
    refine listLtb_cons_false hd2le (fun e9 => ?_)
    rfl
  | [], h => by simp [isIsoDateList] at h
  | [_], h => by simp [isIsoDateList] at h
  | [_, _], h => by simp [isIsoDateList] at h
  | [_, _, _], h => by simp [isIsoDateList] at h
  | [_, _, _, _], h => by simp [isIsoDateList] at h
  | [_, _, _, _, _], h => by simp [isIsoDateList] at h
  | [_, _, _, _, _, _], h => by simp [isIsoDateList] at h
  | [_, _, _, _, _, _, _], h => by simp [isIsoDateList] at h
  | [_, _, _, _, _, _, _, _], h => by simp [isIsoDateList] at h
  | [_, _, _, _, _, _, _, _, _], h => by simp [isIsoDateList] at h
  | _ :: _ :: _ :: _ :: _ :: _ :: _ :: _ :: _ :: _ :: _ :: _, h => by
      simp [isIsoDateList] at h

/-- A valid calendar-day date is never strictly after the missing-cutoff
sentinel. -/
theorem iso_not_after_sentinel (d : String) (h : isIsoDate d = true) :
    strLtb "9999-12-31" d = false :=
  isoList_not_after_sentinel d.data h

/-! ## Helper lemmas: dict operations -/

theorem dictGet_map_update (t : String) (d : ℤ) (t' : String) :
    ∀ h : List (String × ℤ),
      dictGet (h.map (fun p => if p.1 = t then (p.1, p.2 + d) else p)) t' =
        if t' = t then (dictGet h t).map (· + d) else dictGet h t'
  | [] => by by_cases ht : t' = t <;> simp [dictGet, ht]
  | (a, b) :: rest => by
    by_cases h1 : a = t
    · subst h1
      by_cases h2 : t' = a
      · subst h2; simp [dictGet]
      · simp [dictGet, h2, Ne.symm h2, dictGet_map_update a d t' rest]
    · by_cases h2 : t' = t
      · subst h2
        simp [dictGet, h1, Ne.symm h1, dictGet_map_update t' d t' rest]
      · by_cases h3 : a = t'
        · simp [dictGet, h1, h2, h3]
        · simp [dictGet, h1, h2, h3, dictGet_map_update t d t' rest]

theorem dictGet_append (t' : String) : ∀ h₁ h₂ : List (String × ℤ),
    dictGet (h₁ ++ h₂) t' =
      match dictGet h₁ t' with
      | some v => some v
      | none => dictGet h₂ t'
  | [], h₂ => by simp [dictGet]
  | p :: rest, h₂ => by
    by_cases h1 : p.1 = t' <;> simp [dictGet, h1, dictGet_append t' rest h₂]

theorem getOrZero_dictAdd (h : List (String × ℤ)) (t : String) (d : ℤ) (t' : String) :
    getOrZero (dictAdd h t d) t' = getOrZero h t' + (if t' = t then d else 0) := by
  by_cases hs : (dictGet h t).isSome
  · have hmap : dictAdd h t d = h.map (fun p => if p.1 = t then (p.1, p.2 + d) else p) := by
      simp [dictAdd, hs]
    rw [hmap, getOrZero, dictGet_map_update]
    by_cases ht : t' = t
    · subst ht
      obtain ⟨v, hv⟩ := Option.isSome_iff_exists.mp hs
      simp [getOrZero, hv]
    · simp [ht, getOrZero]
  · have hnone : dictGet h t = none := Option.not_isSome_iff_eq_none.mp hs
    have happ : dictAdd h t d = h ++ [(t, d)] := by simp [dictAdd, hnone]
    rw [happ, getOrZero, dictGet_append]
    by_cases ht : t' = t
    · subst ht
      simp [hnone, dictGet, getOrZero]
    · cases hv : dictGet h t' with
      | none => simp [hv, dictGet, Ne.symm ht, ht, getOrZero]
      | some v => simp [hv, ht, getOrZero]

/-! ## Helper lemmas: the replay loop -/

theorem applyValidTx_char (st : RState) (tx : Transaction) :
    applyValidTx st tx =
      if txValid tx then
        (dictAdd st.1 (tx.ticker.getD "") (sharesDelta tx), st.2 + cashDelta tx)
      else st := by
  unfold applyValidTx txValid sharesDelta cashDelta
  by_cases h1 : truthy tx.ticker
  · by_cases h2 : 0 < tx.shares
    · by_cases h3 : 0 ≤ tx.priceCents
      · have hv : ¬ (¬ truthy tx.ticker ∨ tx.shares ≤ 0 ∨ tx.priceCents < 0) := by
          push_neg
          exact ⟨h1, h2, h3⟩
        by_cases h4 : strUpper (tx.ttype.getD "") = "BUY"
        · simp [hv, h1, h2, h3, h4, sub_eq_add_neg]
        · by_cases h5 : strUpper (tx.ttype.getD "") = "SELL"
          · simp [hv, h1, h2, h3, h4, h5]
          · simp [hv, h1, h2, h3, h4, h5]
      · have : tx.priceCents < 0 := by omega
        simp [this, h1, h2, h3]
    · have : tx.shares ≤ 0 := by omega
      simp [this, h1, h2]
  · simp [h1]

theorem applyTx_eq_stepWith (c : String) (st : RState) (tx : Transaction) :
    applyTx c st tx = stepWith (dateSkip c) st tx := rfl

theorem stepWith_false (st : RState) (tx : Transaction) :
    stepWith (fun _ => false) st tx = applyValidTx st tx := rfl

theorem foldl_stepWith_cash (p : Transaction → Bool) :
    ∀ (txs : List Transaction) (st : RState),
      (txs.foldl (stepWith p) st).2 =
        st.2 + (txs.map (fun tx =>
          if p tx = false ∧ txValid tx = true then cashDelta tx else 0)).sum
  | [], st => by simp
  | tx :: rest, st => by
    rw [List.foldl_cons, foldl_stepWith_cash p rest]
    have hstep : (stepWith p st tx).2 =
        st.2 + (if p tx = false ∧ txValid tx = true then cashDelta tx else 0) := by
      unfold stepWith
      by_cases hp : p tx
      · simp [hp]
      · rw [if_neg (by simpa using hp), applyValidTx_char]
        by_cases hv : txValid tx
        · simp [hp, hv]
        · simp [hp, hv]
    rw [hstep, List.map_cons, List.sum_cons]
    ring

theorem foldl_stepWith_shares (p : Transaction → Bool) (t : String) :
    ∀ (txs : List Transaction) (st : RState),
      getOrZero (txs.foldl (stepWith p) st).1 t =
        getOrZero st.1 t + (txs.map (fun tx =>
          if p tx = false ∧ txValid tx = true ∧ tx.ticker.getD "" = t
          then sharesDelta tx else 0)).sum
  | [], st => by simp
  | tx :: rest, st => by
    rw [List.foldl_cons, foldl_stepWith_shares p t rest]
    have hstep : getOrZero (stepWith p st tx).1 t =
        getOrZero st.1 t +
          (if p tx = false ∧ txValid tx = true ∧ tx.ticker.getD "" = t
           then sharesDelta tx else 0) := by
      unfold stepWith
      by_cases hp : p tx
      · simp [hp]
      · rw [if_neg (by simpa using hp), applyValidTx_char]
        by_cases hv : txValid tx
        · rw [if_pos hv]
          rw [getOrZero_dictAdd]
          by_cases ht : t = tx.ticker.getD ""
          · simp [hp, hv, ht]
          · simp [hp, hv, ht, Ne.symm ht]
        · simp [hp, hv]
    rw [hstep, List.map_cons, List.sum_cons]
    ring

/-! ## Helper lemmas: the rebalancer -/

theorem dictGet_of_mem_nodup {β : Type} {t : String} {v : β} :
    ∀ {l : List (String × β)}, (l.map Prod.fst).Nodup → (t, v) ∈ l →
      dictGet l t = some v
  | [], _, hm => by simp at hm
  | (a, b) :: rest, hnd, hm => by
    have hnd₂ := List.nodup_cons.mp (show (a :: rest.map Prod.fst).Nodup from hnd)
    rcases List.mem_cons.mp hm with he | hr
    · rw [Prod.mk.injEq] at he
      obtain ⟨rfl, rfl⟩ := he
      simp [dictGet]
    · have hne : a ≠ t := by
        intro he
        subst he
        exact hnd₂.1 (List.mem_map_of_mem Prod.fst hr)
      have hrest := dictGet_of_mem_nodup (l := rest) hnd₂.2 hr
      simp [dictGet, hne, hrest]

theorem dictGet_mem {β : Type} {t : String} {v : β} :
    ∀ {l : List (String × β)}, dictGet l t = some v → (t, v) ∈ l
  | [], h => by simp [dictGet] at h
  | (a, b) :: rest, h => by
    by_cases ha : a = t
    · subst ha
      simp [dictGet] at h
      simp [h]
    · simp [dictGet, ha] at h
      exact List.mem_cons_of_mem _ (dictGet_mem h)

theorem dictGet_weightsList {t : String} {s : ℤ} {p : ℤ}
    {prices : List (String × ℤ)} (total : ℤ) :
    ∀ {holdings : List (String × ℤ)}, (holdings.map Prod.fst).Nodup →
      (t, s) ∈ holdings → dictGet prices t = some p →
      dictGet (weightsList holdings prices total) t =
        some (((p * s : ℤ) : ℚ) / (total : ℚ))
  | [], _, hm, _ => by simp at hm
  | (a, b) :: rest, hnd, hm, hp => by
    have hnd₂ := List.nodup_cons.mp (show (a :: rest.map Prod.fst).Nodup from hnd)
    rcases List.mem_cons.mp hm with he | hr
    · rw [Prod.mk.injEq] at he
      obtain ⟨rfl, rfl⟩ := he
      simp [weightsList, List.filterMap_cons, hp, dictGet]
    · have hne : a ≠ t := by
        intro he
        subst he
        exact hnd₂.1 (List.mem_map_of_mem Prod.fst hr)
      have hrest := dictGet_weightsList (t := t) (s := s) (p := p) total hnd₂.2 hr hp
      rw [weightsList, List.filterMap_cons]
      cases hpa : dictGet prices a with
      | none => simpa [weightsList] using hrest
      | some q => simpa [dictGet, hne, weightsList] using hrest

theorem setShares_of_not_mem {t : String} {v : ℤ} :
    ∀ {l : List (String × ℤ)}, t ∉ l.map Prod.fst → setShares l t v = l
  | [], _ => rfl
  | (a, b) :: rest, hn => by
    have hne : a ≠ t := fun he => hn (by simp [he])
    have hrec : t ∉ rest.map Prod.fst := fun hc => hn (by simp [hc])
    have hr := setShares_of_not_mem (l := rest) (v := v) hrec
    simp only [setShares, List.map_cons, if_neg hne]
    rw [show (rest.map fun q => if q.1 = t then (q.1, v) else q) = setShares rest t v from rfl,
      hr]

theorem positionsNav_setShares {t : String} {s p v : ℤ} {prices : List (String × ℤ)} :
    ∀ {holdings : List (String × ℤ)}, (holdings.map Prod.fst).Nodup →
      (t, s) ∈ holdings → dictGet prices t = some p →
      positionsNav (setShares holdings t v) prices =
        positionsNav holdings prices + p * (v - s)
  | [], _, hm, _ => by simp at hm
  | (a, b) :: rest, hnd, hm, hp => by
    have hnd₂ := List.nodup_cons.mp (show (a :: rest.map Prod.fst).Nodup from hnd)
    rcases List.mem_cons.mp hm with he | hr
    · rw [Prod.mk.injEq] at he
      obtain ⟨rfl, rfl⟩ := he
      have hrest : setShares rest t v = rest := setShares_of_not_mem hnd₂.1
      simp only [setShares, List.map_cons, if_pos rfl]
      rw [show (rest.map fun q => if q.1 = t then (q.1, v) else q) = setShares rest t v from rfl,
        hrest]
      simp [positionsNav, hp]
      ring
    · have hne : a ≠ t := by
        intro he
        subst he
        exact hnd₂.1 (List.mem_map_of_mem Prod.fst hr)
      have hrest := positionsNav_setShares (v := v) hnd₂.2 hr hp
      simp only [setShares, List.map_cons, if_neg hne]
      rw [show (rest.map fun q => if q.1 = t then (q.1, v) else q) = setShares rest t v from rfl]
      simp [positionsNav, hrest]
      ring

/-! ## Helper lemmas: trade-loop inversion and the boundary arithmetic -/

theorem abs_copysignInt (x y : ℤ) : |copysignInt x y| = |x| := by
  unfold copysignInt
  split <;> simp

theorem tradeFor_inv {weights : List (String × ℚ)} {total : ℤ}
    {prices : List (String × ℤ)} {maxW : ℚ} {e : String × ℤ} {tr : TradeProposal}
    (h : tradeFor weights total prices maxW e = some tr) :
    e.2 ≠ 0 ∧
    ∃ p : ℤ, dictGet prices e.1 = some p ∧
      maxW < |(dictGet weights e.1).getD 0| ∧
      desiredAbsShares maxW total p e.2 < |e.2| ∧
      tr = ⟨e.1, if e.2 > 0 then "SELL" else "BUY",
            |e.2| - desiredAbsShares maxW total p e.2, p,
            (dictGet weights e.1).getD 0, maxW⟩ := by
  by_cases h0 : e.2 = 0
  · rw [tradeFor, if_pos h0] at h
    exact absurd h (by simp)
  · refine ⟨h0, ?_⟩
    cases hp : dictGet prices e.1 with
    | none =>
      rw [tradeFor, if_neg h0] at h
      rw [hp] at h
      exact absurd h (by simp)
    | some p =>
      refine ⟨p, rfl, ?_⟩
      rw [tradeFor, if_neg h0] at h
      rw [hp] at h
      simp only [] at h
      have hfold : ⌊((|copysignInt (intTrunc (maxW * (total : ℚ))) (p * e.2)| : ℤ) : ℚ) /
          (p : ℚ)⌋ = desiredAbsShares maxW total p e.2 := rfl
      rw [hfold] at h
      by_cases hw : |(dictGet weights e.1).getD 0| ≤ maxW
      · rw [if_pos hw] at h
        exact absurd h (by simp)
      · rw [if_neg hw] at h
        refine ⟨not_le.mp hw, ?_⟩
        by_cases hd : desiredAbsShares maxW total p e.2 ≥ |e.2|
        · rw [if_pos hd] at h
          exact absurd h (by simp)
        · rw [if_neg hd] at h
          refine ⟨not_le.mp (by simpa using hd), ?_⟩
          by_cases hz : |e.2| - desiredAbsShares maxW total p e.2 ≤ 0
          · rw [if_pos hz] at h
            exact absurd h (by simp)
          · rw [if_neg hz] at h
            exact (Option.some.injEq _ _ ▸ h).symm

theorem mem_tradesOf_inv {holdings : List (String × ℤ)} {cash : ℤ}
    {prices : List (String × ℤ)} {maxW : ℚ} {tr : TradeProposal}
    (htr : tr ∈ tradesOf (build_rebalance_trades holdings cash prices maxW)) :
    0 < positionsNav holdings prices + cash ∧
    ∃ e ∈ holdings,
      tradeFor (weightsList holdings prices (positionsNav holdings prices + cash))
        (positionsNav holdings prices + cash) prices maxW e = some tr := by
  by_cases hle : positionsNav holdings prices + cash ≤ 0
  · rw [build_rebalance_trades, compute_weights] at htr
    simp only [if_pos hle, tradesOf] at htr
    exact absurd htr (List.not_mem_nil tr)
  · refine ⟨not_le.mp hle, ?_⟩
    rw [build_rebalance_trades, compute_weights] at htr
    simp only [if_neg hle, tradesOf] at htr
    exact List.mem_filterMap.mp htr

theorem desired_nonneg_le {maxW : ℚ} (hmw : 0 ≤ maxW) {total : ℤ} (htot : 0 < total)
    {p : ℤ} (hp : 0 < p) (x : ℤ) :
    0 ≤ desiredAbsShares maxW total p x ∧
      ((desiredAbsShares maxW total p x : ℤ) : ℚ) * (p : ℚ) ≤ maxW * (total : ℚ) := by
  have htq : (0 : ℚ) ≤ (total : ℚ) := by exact_mod_cast htot.le
  have hpq : (0 : ℚ) < (p : ℚ) := by exact_mod_cast hp
  have hMq : (0 : ℚ) ≤ maxW * (total : ℚ) := mul_nonneg hmw htq
  have hMfloor : intTrunc (maxW * (total : ℚ)) = ⌊maxW * (total : ℚ)⌋ := by
    rw [intTrunc, if_pos hMq]
  have hM0 : 0 ≤ intTrunc (maxW * (total : ℚ)) := by
    rw [hMfloor]
    exact Int.floor_nonneg.mpr hMq
  have hMle : ((intTrunc (maxW * (total : ℚ)) : ℤ) : ℚ) ≤ maxW * (total : ℚ) := by
    rw [hMfloor]
    exact Int.floor_le _
  have habs : |copysignInt (intTrunc (maxW * (total : ℚ))) (p * x)| =
      intTrunc (maxW * (total : ℚ)) := by
    rw [abs_copysignInt, abs_of_nonneg hM0]
  constructor
  · rw [desiredAbsShares, habs]
    exact Int.floor_nonneg.mpr (div_nonneg (by exact_mod_cast hM0) hpq.le)
  · rw [desiredAbsShares, habs]
    have hfl : ((⌊((intTrunc (maxW * (total : ℚ)) : ℤ) : ℚ) / (p : ℚ)⌋ : ℤ) : ℚ) ≤
        ((intTrunc (maxW * (total : ℚ)) : ℤ) : ℚ) / (p : ℚ) := Int.floor_le _
    calc ((⌊((intTrunc (maxW * (total : ℚ)) : ℤ) : ℚ) / (p : ℚ)⌋ : ℤ) : ℚ) * (p : ℚ)
        ≤ ((intTrunc (maxW * (total : ℚ)) : ℤ) : ℚ) := (le_div_iff₀ hpq).mp hfl
      _ ≤ maxW * (total : ℚ) := hMle

/-! ## Helper lemmas: appending one transaction to a replay -/

theorem replay_append_valid (start : ℤ) (txs : List Transaction) (asOf : Option String)
    (tx : Transaction) (hdate : dateSkip (asOf.getD "9999-12-31") tx = false)
    (hv : txValid tx = true) :
    compute_holdings_and_cash start (txs ++ [tx]) asOf =
      (dictAdd (compute_holdings_and_cash start txs asOf).1 (tx.ticker.getD "")
         (sharesDelta tx),
       (compute_holdings_and_cash start txs asOf).2 + cashDelta tx) := by
  unfold compute_holdings_and_cash
  rw [List.foldl_append, List.foldl_cons, List.foldl_nil, applyTx_eq_stepWith]
  unfold stepWith
  rw [if_neg (by simp [hdate]), applyValidTx_char, if_pos hv]

theorem replay_append_invalid (start : ℤ) (txs : List Transaction) (asOf : Option String)
    (tx : Transaction) (hv : txValid tx = false) :
    compute_holdings_and_cash start (txs ++ [tx]) asOf =
      compute_holdings_and_cash start txs asOf := by
  unfold compute_holdings_and_cash
  rw [List.foldl_append, List.foldl_cons, List.foldl_nil, applyTx_eq_stepWith]
  unfold stepWith
  by_cases hskip : dateSkip (asOf.getD "9999-12-31") tx
  · rw [if_pos hskip]
  · rw [if_neg hskip, applyValidTx_char, if_neg (by simp [hv])]

/-! ## The claims about the Ledger Replayer -/

/-- C3: a valid BUY processed during replay adds exactly its share count to
the ticker and subtracts exactly `shares * priceCents` from cash; a valid
SELL subtracts the shares and adds the cash, with no check against current
holdings (the share count may go negative). -/
theorem C3_replay_buy_sell_effect (start : ℤ) (txs : List Transaction)
    (asOf : Option String) (tx : Transaction)
    (hdate : dateSkip (asOf.getD "9999-12-31") tx = false)
    (ht : truthy tx.ticker = true) (hsh : 0 < tx.shares) (hpr : 0 ≤ tx.priceCents) :
    (strUpper (tx.ttype.getD "") = "BUY" →
      getOrZero (compute_holdings_and_cash start (txs ++ [tx]) asOf).1 (tx.ticker.getD "") =
        getOrZero (compute_holdings_and_cash start txs asOf).1 (tx.ticker.getD "") +
          tx.shares ∧
      (compute_holdings_and_cash start (txs ++ [tx]) asOf).2 =
        (compute_holdings_and_cash start txs asOf).2 - tx.shares * tx.priceCents) ∧
    (strUpper (tx.ttype.getD "") = "SELL" →
      getOrZero (compute_holdings_and_cash start (txs ++ [tx]) asOf).1 (tx.ticker.getD "") =
        getOrZero (compute_holdings_and_cash start txs asOf).1 (tx.ticker.getD "") -
          tx.shares ∧
      (compute_holdings_and_cash start (txs ++ [tx]) asOf).2 =
        (compute_holdings_and_cash start txs asOf).2 + tx.shares * tx.priceCents) := by
  constructor
  · intro hb
    have hv : txValid tx = true := by simp [txValid, ht, hsh, hpr, hb]
    rw [replay_append_valid start txs asOf tx hdate hv]
    rw [getOrZero_dictAdd]
    simp [sharesDelta, cashDelta, hb]
    ring
  · intro hs
    have hbne : ¬ strUpper (tx.ttype.getD "") = "BUY" := by
      rw [hs]
      decide
    have hv : txValid tx = true := by simp [txValid, ht, hsh, hpr, hs]
    rw [replay_append_valid start txs asOf tx hdate hv]
    rw [getOrZero_dictAdd]
    simp [sharesDelta, cashDelta, hbne]
    ring

theorem C3_witness :
    getOrZero (compute_holdings_and_cash 0
        [⟨some "2024-01-02", some "AAPL", some "BUY", 10, 100⟩,
         ⟨some "2024-01-03", some "AAPL", some "SELL", 50, 100⟩] none).1 "AAPL" = -40 ∧
    (compute_holdings_and_cash 0
        [⟨some "2024-01-02", some "AAPL", some "BUY", 10, 100⟩,
         ⟨some "2024-01-03", some "AAPL", some "SELL", 50, 100⟩] none).2 = 4000 := by
  have h := C3_replay_buy_sell_effect 0
    [⟨some "2024-01-02", some "AAPL", some "BUY", 10, 100⟩] none
    ⟨some "2024-01-03", some "AAPL", some "SELL", 50, 100⟩
    (by decide) (by decide) (by decide) (by decide)
  have h2 := h.2 (by decide)
  exact ⟨h2.1.trans (by decide), h2.2.trans (by decide)⟩

/-- C6: any transaction with a falsy ticker, non-positive share count,
negative price, or unrecognized type (after uppercasing) leaves holdings
and cash unchanged during replay, raising no error; in particular a
`shares = 0` transaction has no effect. -/
theorem C6_malformed_skipped (start : ℤ) (txs : List Transaction) (asOf : Option String)
    (tx : Transaction)
    (hbad : truthy tx.ticker = false ∨ tx.shares ≤ 0 ∨ tx.priceCents < 0 ∨
      (strUpper (tx.ttype.getD "") ≠ "BUY" ∧ strUpper (tx.ttype.getD "") ≠ "SELL")) :
    compute_holdings_and_cash start (txs ++ [tx]) asOf =
      compute_holdings_and_cash start txs asOf := by
  apply replay_append_invalid
  rcases hbad with h | h | h | ⟨h1, h2⟩
  · simp [txValid, h]
  · have hns : ¬ (0 < tx.shares) := not_lt.mpr h
    simp [txValid, hns]
  · have hnp : ¬ (0 ≤ tx.priceCents) := not_le.mpr h
    simp [txValid, hnp]
  · simp [txValid, h1, h2]

theorem C6_witness :
    compute_holdings_and_cash 700
      [⟨some "2024-01-02", some "AAPL", some "BUY", 3, 2⟩,
       ⟨some "2024-01-05", some "AAPL", some "BUY", 0, 100⟩] none =
    compute_holdings_and_cash 700
      [⟨some "2024-01-02", some "AAPL", some "BUY", 3, 2⟩] none :=
  C6_malformed_skipped 700 [⟨some "2024-01-02", some "AAPL", some "BUY", 3, 2⟩] none
    ⟨some "2024-01-05", some "AAPL", some "BUY", 0, 100⟩
    (Or.inr (Or.inl (by decide)))

theorem foldl_applyTx_sentinel_eq (txs : List Transaction)
    (hdates : ∀ tx ∈ txs, ∀ d : String, tx.date = some d → d ≠ "" → isIsoDate d = true) :
    ∀ st : RState, txs.foldl (applyTx "9999-12-31") st = txs.foldl applyValidTx st := by
  induction txs with
  | nil => intro st; rfl
  | cons tx rest ih =>
    intro st
    rw [List.foldl_cons, List.foldl_cons]
    have hstep : applyTx "9999-12-31" st tx = applyValidTx st tx := by
      rw [applyTx]
      have hcond : (truthy tx.date && strLtb "9999-12-31" (tx.date.getD "")) = false := by
        cases hd : tx.date with
        | none => simp [truthy]
        | some d =>
          by_cases hde : d = ""
          · subst hde; simp [truthy]
          · have hiso := hdates tx (List.mem_cons_self ..) d hd hde
            simp [truthy, hde, iso_not_after_sentinel d hiso]
      rw [hcond]
      simp
    rw [hstep]
    exact ih (fun tx' h' => hdates tx' (List.mem_cons_of_mem _ h')) _

/-- C9: with no cutoff supplied, the replay applies every transaction that
passes the validity checks — no calendar-day date compares strictly above
the substituted sentinel `"9999-12-31"`, so the date filter never fires. -/
theorem C9_missing_cutoff_applies_all (start : ℤ) (txs : List Transaction)
    (hdates : ∀ tx ∈ txs, ∀ d : String, tx.date = some d → d ≠ "" → isIsoDate d = true) :
    compute_holdings_and_cash start txs none = txs.foldl applyValidTx ([], start) := by
  unfold compute_holdings_and_cash
  exact foldl_applyTx_sentinel_eq txs hdates ([], start)

theorem C9_witness :
    compute_holdings_and_cash 100
      [⟨some "2024-02-29", some "AAPL", some "BUY", 1, 10⟩,
       ⟨some "9999-12-31", some "MSFT", some "SELL", 2, 5⟩] none =
    [⟨some "2024-02-29", some "AAPL", some "BUY", 1, 10⟩,
     ⟨some "9999-12-31", some "MSFT", some "SELL", 2, 5⟩].foldl applyValidTx ([], 100) := by
  apply C9_missing_cutoff_applies_all
  intro tx htx d hd hde
  simp only [List.mem_cons, List.not_mem_nil, or_false] at htx
  rcases htx with rfl | rfl
  · have hD := Option.some.inj (show some "2024-02-29" = some d from hd)
    subst hD
    decide
  · have hD := Option.some.inj (show some "9999-12-31" = some d from hd)
    subst hD
    decide

/-- C10: a transaction whose date is missing or the empty string is never
skipped by the cutoff filter: for any supplied cutoff the replay step
treats it exactly as the unfiltered loop body, the same as with no cutoff
(sentinel `"9999-12-31"`). -/
theorem C10_falsy_date_never_skipped (tx : Transaction)
    (hd : tx.date = none ∨ tx.date = some "") (c : String) (st : RState) :
    applyTx c st tx = applyValidTx st tx ∧
      applyTx c st tx = applyTx "9999-12-31" st tx := by
  have htr : truthy tx.date = false := by rcases hd with h | h <;> simp [h, truthy]
  constructor
  · simp [applyTx, htr]
  · simp [applyTx, htr]

theorem C10_witness :
    applyTx "2020-01-01" ([], 0) ⟨none, some "A", some "BUY", 1, 5⟩ =
      applyValidTx ([], 0) ⟨none, some "A", some "BUY", 1, 5⟩ ∧
    applyTx "2020-01-01" ([], 0) ⟨none, some "A", some "BUY", 1, 5⟩ =
      applyTx "9999-12-31" ([], 0) ⟨none, some "A", some "BUY", 1, 5⟩ :=
  C10_falsy_date_never_skipped ⟨none, some "A", some "BUY", 1, 5⟩ (Or.inl rfl)
    "2020-01-01" ([], 0)

/-! ## The claims about the Weight Calculator and Trade Builder -/

/-- C2: `compute_weights` returns the domain error exactly when total NAV
(positions NAV plus cash) is non-positive, and in that case
`build_rebalance_trades` propagates the error instead of returning a trade
list. -/
theorem C2_nav_guard (holdings : List (String × ℤ)) (cash : ℤ)
    (prices : List (String × ℤ)) (maxW : ℚ) :
    (compute_weights holdings cash prices =
        Except.error (navErrorMsg (positionsNav holdings prices + cash)) ↔
      positionsNav holdings prices + cash ≤ 0) ∧
    (positionsNav holdings prices + cash ≤ 0 →
      build_rebalance_trades holdings cash prices maxW =
        Except.error (navErrorMsg (positionsNav holdings prices + cash))) := by
  have herr : positionsNav holdings prices + cash ≤ 0 →
      compute_weights holdings cash prices =
        Except.error (navErrorMsg (positionsNav holdings prices + cash)) := by
    intro hle
    simp [compute_weights, hle]
  constructor
  · constructor
    · intro h
      by_contra hpos
      simp [compute_weights, hpos] at h
    · exact herr
  · intro hle
    rw [build_rebalance_trades, herr hle]

theorem C2_witness :
    compute_weights [] (-5) [] = Except.error (navErrorMsg (-5)) ∧
    build_rebalance_trades [] (-5) [] (0.15 : ℚ) = Except.error (navErrorMsg (-5)) := by
  have h := C2_nav_guard [] (-5) [] (0.15 : ℚ)
  exact ⟨h.1.mpr (by decide), h.2 (by decide)⟩

/-- C5: when total NAV is strictly positive and every ticker with nonzero
holdings and a known price already has absolute weight at most the
ceiling, `build_rebalance_trades` returns the empty list. -/
theorem C5_no_trade (holdings : List (String × ℤ)) (cash : ℤ)
    (prices : List (String × ℤ)) (maxW : ℚ)
    (hnd : (holdings.map Prod.fst).Nodup)
    (hpos : 0 < positionsNav holdings prices + cash)
    (hw : ∀ t s p, (t, s) ∈ holdings → s ≠ 0 → dictGet prices t = some p →
      |((p * s : ℤ) : ℚ) / ((positionsNav holdings prices + cash : ℤ) : ℚ)| ≤ maxW) :
    build_rebalance_trades holdings cash prices maxW = Except.ok [] := by
  rw [build_rebalance_trades, compute_weights]
  simp only [if_neg (not_le.mpr hpos)]
  rw [Except.ok.injEq, List.filterMap_eq_nil_iff]
  intro e he
  rcases e with ⟨t, s⟩
  by_cases hs : s = 0
  · simp [tradeFor, hs]
  · cases hp : dictGet prices t with
    | none => simp [tradeFor, hs, hp]
    | some p =>
      have hwl := dictGet_weightsList (positionsNav holdings prices + cash) hnd he hp
      have hle' : |(p : ℚ) * (s : ℚ) / ((positionsNav holdings prices : ℚ) + (cash : ℚ))| ≤
          maxW := by
        have h0 := hw t s p he hs hp
        rw [show ((p * s : ℤ) : ℚ) = (p : ℚ) * (s : ℚ) from by push_cast; ring,
            show ((positionsNav holdings prices + cash : ℤ) : ℚ) =
              (positionsNav holdings prices : ℚ) + (cash : ℚ) from by push_cast; ring] at h0
        exact h0
      simp [tradeFor, hs, hp, hwl]
      intro hlt
      exact absurd hlt (not_lt.mpr hle')

theorem C5_witness :
    build_rebalance_trades [("A", 1), ("B", 1)] 100 [("A", 10), ("B", 10)] (0.15 : ℚ) =
      Except.ok [] := by
  apply C5_no_trade
  · decide
  · decide
  · intro t s p hmem hsne hpd
    simp only [List.mem_cons, List.not_mem_nil, or_false] at hmem
    rcases hmem with he | he <;> (rw [Prod.mk.injEq] at he; obtain ⟨rfl, rfl⟩ := he)
    · have hpv := Option.some.inj
        ((show dictGet [("A", (10 : ℤ)), ("B", 10)] "A" = some 10 from rfl).symm.trans hpd)
      subst hpv
      show |((10 * 1 : ℤ) : ℚ) / ((120 : ℤ) : ℚ)| ≤ (0.15 : ℚ)
      rw [abs_of_nonneg (by norm_num)]
      norm_num
    · have hpv := Option.some.inj
        ((show dictGet [("A", (10 : ℤ)), ("B", 10)] "B" = some 10 from rfl).symm.trans hpd)
      subst hpv
      show |((10 * 1 : ℤ) : ℚ) / ((120 : ℤ) : ℚ)| ≤ (0.15 : ℚ)
      rw [abs_of_nonneg (by norm_num)]
      norm_num

/-- C4: Scenario B — holdings `{AAPL: 100}`, cash 0, price 20000¢, ceiling
0.15 produce exactly one proposal, SELL 85 AAPL at 20000¢, via boundary
NAV `int(0.15 * 2000000) = 300000` and desired shares
`floor(300000 / 20000) = 15`. -/
theorem C4_scenario_b :
    build_rebalance_trades [("AAPL", 100)] 0 [("AAPL", 20000)] (0.15 : ℚ) =
      Except.ok [⟨"AAPL", "SELL", 85, 20000, 1, 0.15⟩] ∧
    intTrunc ((0.15 : ℚ) * ((2000000 : ℤ) : ℚ)) = 300000 ∧
    (⌊((300000 : ℤ) : ℚ) / ((20000 : ℤ) : ℚ)⌋ : ℤ) = 15 := by
  have e0 : ((300000 : ℚ) : ℚ) = ((300000 : ℤ) : ℚ) := by norm_num
  have e1 : intTrunc (300000 : ℚ) = 300000 := by
    rw [intTrunc, if_pos (by norm_num), e0, Int.floor_intCast]
  have e2 : copysignInt 300000 2000000 = (300000 : ℤ) := by decide
  have e3 : |(300000 : ℤ)| = 300000 := by decide
  have e15 : ((15 : ℚ) : ℚ) = ((15 : ℤ) : ℚ) := by norm_num
  have e4 : (⌊(15 : ℚ)⌋ : ℤ) = 15 := by rw [e15, Int.floor_intCast]
  have e5 : (⌊(300000 : ℚ) / 20000⌋ : ℤ) = 15 := by
    rw [show (300000 : ℚ) / 20000 = (15 : ℚ) from by norm_num, e4]
  have hc : ¬ (|(1 : ℚ)| ≤ 3 / 20) := by
    rw [abs_one]
    norm_num
  have h1 : intTrunc ((0.15 : ℚ) * ((2000000 : ℤ) : ℚ)) = 300000 := by
    rw [show ((0.15 : ℚ) * ((2000000 : ℤ) : ℚ)) = (300000 : ℚ) from by push_cast; norm_num, e1]
  have h2 : (⌊((300000 : ℤ) : ℚ) / ((20000 : ℤ) : ℚ)⌋ : ℤ) = 15 := by
    rw [show ((300000 : ℤ) : ℚ) / ((20000 : ℤ) : ℚ) = (15 : ℚ) from by push_cast; norm_num, e4]
  refine ⟨?_, h1, h2⟩
  have hpn : positionsNav [("AAPL", 100)] [("AAPL", 20000)] = 2000000 := by decide
  have hwl : weightsList [("AAPL", 100)] [("AAPL", 20000)] 2000000 = [("AAPL", (1 : ℚ))] := by
    simp [weightsList, dictGet]
    norm_num
  have htf : tradeFor [("AAPL", (1 : ℚ))] 2000000 [("AAPL", 20000)] ((3 : ℚ) / 20)
      ("AAPL", 100) = some ⟨"AAPL", "SELL", 85, 20000, 1, (3 : ℚ) / 20⟩ := by
    norm_num [tradeFor, dictGet, e1, e2, e3, e4, e5, hc]
  rw [build_rebalance_trades, compute_weights]
  simp only [hpn]
  norm_num [hwl]
  simp [List.filterMap_cons, htf]

/-- Concrete run used for C7: a 100%-weight long of a single share is
trimmed by selling the entire share (desired boundary shares = 0). -/
theorem build_eval_single_share :
    build_rebalance_trades [("A", 1)] 0 [("A", 100)] (0.15 : ℚ) =
      Except.ok [⟨"A", "SELL", 1, 100, 1, 0.15⟩] := by
  have e15 : ((15 : ℚ) : ℚ) = ((15 : ℤ) : ℚ) := by norm_num
  have e1 : intTrunc (15 : ℚ) = 15 := by
    rw [intTrunc, if_pos (by norm_num), e15, Int.floor_intCast]
  have e2 : copysignInt 15 100 = (15 : ℤ) := by decide
  have e3 : |(15 : ℤ)| = 15 := by decide
  have e6 : (⌊(3 : ℚ) / 20⌋ : ℤ) = 0 := by
    rw [Int.floor_eq_iff]
    constructor <;> norm_num
  have e6b : (⌊(15 : ℚ) / 100⌋ : ℤ) = 0 := by
    rw [show (15 : ℚ) / 100 = (3 : ℚ) / 20 from by norm_num, e6]
  have hc : ¬ (|(1 : ℚ)| ≤ 3 / 20) := by
    rw [abs_one]
    norm_num
  have hpn : positionsNav [("A", 1)] [("A", 100)] = 100 := by decide
  have hwl : weightsList [("A", 1)] [("A", 100)] 100 = [("A", (1 : ℚ))] := by
    simp [weightsList, dictGet]
  have htf : tradeFor [("A", (1 : ℚ))] 100 [("A", 100)] ((3 : ℚ) / 20) ("A", 1) =
      some ⟨"A", "SELL", 1, 100, 1, (3 : ℚ) / 20⟩ := by
    norm_num [tradeFor, dictGet, e1, e2, e3, e6, e6b, hc]
  rw [build_rebalance_trades, compute_weights]
  simp only [hpn]
  norm_num [hwl, List.filterMap_cons, htf]

/-- C7 counterexample: at holdings `{A: 1}`, cash 0, price 100, ceiling
0.15 the emitted trade sells 1 share while the current absolute share
count is 1 — the quantity is not strictly less than the current absolute
count, refuting the claim as stated (the trade liquidates the position to
exactly zero). -/
theorem C7_counterexample :
    build_rebalance_trades [("A", 1)] 0 [("A", 100)] (0.15 : ℚ) =
      Except.ok [⟨"A", "SELL", 1, 100, 1, 0.15⟩] ∧
    dictGet [("A", (1 : ℤ))] "A" = some 1 ∧
    ¬ ((⟨"A", "SELL", 1, 100, 1, 0.15⟩ : TradeProposal).shares < |(1 : ℤ)|) :=
  ⟨build_eval_single_share, rfl, by decide⟩

/-- C7 (amended): every emitted trade SELLs a long position and BUYs a
short one, its share quantity is strictly positive and at most the current
absolute share count, and applying it strictly reduces the position's
magnitude without flipping the sign (it may reach, but not cross, zero). -/
theorem C7_amended_trade_direction (holdings : List (String × ℤ)) (cash : ℤ)
    (prices : List (String × ℤ)) (maxW : ℚ)
    (hnd : (holdings.map Prod.fst).Nodup)
    (hpr : ∀ tp ∈ prices, (0 : ℤ) ≤ tp.2)
    (hmw : 0 ≤ maxW)
    (tr : TradeProposal)
    (htr : tr ∈ tradesOf (build_rebalance_trades holdings cash prices maxW))
    (s : ℤ) (hs : dictGet holdings tr.ticker = some s) :
    (0 < s → tr.ttype = "SELL") ∧ (s < 0 → tr.ttype = "BUY") ∧
      0 < tr.shares ∧ tr.shares ≤ |s| ∧
      |newShares tr s| < |s| ∧ 0 ≤ s * newShares tr s := by
  obtain ⟨hpos, e, he, htf⟩ := mem_tradesOf_inv htr
  obtain ⟨hne, p, hp, hwgt, hdes, htreq⟩ := tradeFor_inv htf
  subst htreq
  have hsE : s = e.2 := by
    have h1 := dictGet_of_mem_nodup hnd he
    have h2 : dictGet holdings e.1 = some s := hs
    exact Option.some.inj (h2.symm.trans h1)
  subst hsE
  have hp0 : (0 : ℤ) ≤ p := hpr (e.1, p) (dictGet_mem hp)
  have hppos : (0 : ℤ) < p := by
    rcases eq_or_lt_of_le hp0 with heq | h
    · exfalso
      have hw0 := dictGet_weightsList (positionsNav holdings prices + cash) hnd he hp
      rw [hw0] at hwgt
      simp [← heq] at hwgt
      exact absurd hwgt (not_lt.mpr hmw)
    · exact h
  have hdnn := (desired_nonneg_le hmw hpos hppos e.2).1
  have hshares : (0 : ℤ) < |e.2| - desiredAbsShares maxW (positionsNav holdings prices + cash) p e.2 :=
    sub_pos.mpr hdes
  refine ⟨?_, ?_, hshares, sub_le_self _ hdnn, ?_, ?_⟩
  · intro h
    show (if e.2 > 0 then "SELL" else "BUY") = "SELL"
    rw [if_pos h]
  · intro h
    show (if e.2 > 0 then "SELL" else "BUY") = "BUY"
    rw [if_neg (not_lt.mpr h.le)]
  · rcases hne.lt_or_lt with hneg | hposs
    · have htty : (if e.2 > 0 then "SELL" else "BUY") = "BUY" := by
        rw [if_neg (not_lt.mpr hneg.le)]
      rw [newShares]
      simp only [htty]
      rw [if_neg (by decide : ¬ ("BUY" : String) = "SELL")]
      rw [abs_of_neg hneg] at hdes ⊢
      rw [show e.2 + (-e.2 - desiredAbsShares maxW (positionsNav holdings prices + cash) p e.2) =
        -(desiredAbsShares maxW (positionsNav holdings prices + cash) p e.2) from by ring,
        abs_neg, abs_of_nonneg hdnn]
      exact hdes
    · have htty : (if e.2 > 0 then "SELL" else "BUY") = "SELL" := by
        rw [if_pos hposs]
      rw [newShares]
      simp only [htty, if_true]
      rw [abs_of_pos hposs] at hdes ⊢
      rw [show e.2 - (e.2 - desiredAbsShares maxW (positionsNav holdings prices + cash) p e.2) =
        desiredAbsShares maxW (positionsNav holdings prices + cash) p e.2 from by ring,
        abs_of_nonneg hdnn]
      exact hdes
  · rcases hne.lt_or_lt with hneg | hposs
    · have htty : (if e.2 > 0 then "SELL" else "BUY") = "BUY" := by
        rw [if_neg (not_lt.mpr hneg.le)]
      rw [newShares]
      simp only [htty]
      rw [if_neg (by decide : ¬ ("BUY" : String) = "SELL")]
      rw [abs_of_neg hneg]
      rw [show e.2 * (e.2 + (-e.2 - desiredAbsShares maxW (positionsNav holdings prices + cash) p e.2)) =
        (-e.2) * desiredAbsShares maxW (positionsNav holdings prices + cash) p e.2 from by ring]
      exact mul_nonneg (neg_nonneg.mpr hneg.le) hdnn
    · have htty : (if e.2 > 0 then "SELL" else "BUY") = "SELL" := by
        rw [if_pos hposs]
      rw [newShares]
      simp only [htty, if_true]
      rw [abs_of_pos hposs]
      rw [show e.2 * (e.2 - (e.2 - desiredAbsShares maxW (positionsNav holdings prices + cash) p e.2)) =
        e.2 * desiredAbsShares maxW (positionsNav holdings prices + cash) p e.2 from by ring]
      exact mul_nonneg hposs.le hdnn

theorem C7_witness :
    ((0 : ℤ) < 1 → (⟨"A", "SELL", 1, 100, 1, 0.15⟩ : TradeProposal).ttype = "SELL") ∧
    ((1 : ℤ) < 0 → (⟨"A", "SELL", 1, 100, 1, 0.15⟩ : TradeProposal).ttype = "BUY") ∧
    (0 : ℤ) < (⟨"A", "SELL", 1, 100, 1, 0.15⟩ : TradeProposal).shares ∧
    (⟨"A", "SELL", 1, 100, 1, 0.15⟩ : TradeProposal).shares ≤ |(1 : ℤ)| ∧
    |newShares ⟨"A", "SELL", 1, 100, 1, 0.15⟩ 1| < |(1 : ℤ)| ∧
    (0 : ℤ) ≤ 1 * newShares ⟨"A", "SELL", 1, 100, 1, 0.15⟩ 1 := by
  apply C7_amended_trade_direction [("A", 1)] 0 [("A", 100)] (0.15 : ℚ)
    (by decide) (by decide) (by norm_num)
  · rw [build_eval_single_share]
    simp [tradesOf]
  · rfl

/-- C1: boundary idempotence — applying an emitted trade at its quoted
price (shares toward zero, cash adjusted by `shares * price` in the
trade's direction) and recomputing the ticker's weight against the
updated NAV yields an absolute weight at most the ceiling. -/
theorem C1_boundary_idempotence (holdings : List (String × ℤ)) (cash : ℤ)
    (prices : List (String × ℤ)) (maxW : ℚ)
    (hnd : (holdings.map Prod.fst).Nodup)
    (hpr : ∀ tp ∈ prices, (0 : ℤ) ≤ tp.2)
    (hmw : 0 ≤ maxW)
    (tr : TradeProposal)
    (htr : tr ∈ tradesOf (build_rebalance_trades holdings cash prices maxW))
    (s : ℤ) (hs : dictGet holdings tr.ticker = some s) :
    |((tr.priceCents * newShares tr s : ℤ) : ℚ) /
      ((positionsNav (setShares holdings tr.ticker (newShares tr s)) prices +
          newCash tr cash : ℤ) : ℚ)| ≤ maxW := by
  obtain ⟨hpos, e, he, htf⟩ := mem_tradesOf_inv htr
  obtain ⟨hne, p, hp, hwgt, hdes, htreq⟩ := tradeFor_inv htf
  subst htreq
  have hsE : s = e.2 := by
    have h1 := dictGet_of_mem_nodup hnd he
    have h2 : dictGet holdings e.1 = some s := hs
    exact Option.some.inj (h2.symm.trans h1)
  subst hsE
  have hp0 : (0 : ℤ) ≤ p := hpr (e.1, p) (dictGet_mem hp)
  have hppos : (0 : ℤ) < p := by
    rcases eq_or_lt_of_le hp0 with heq | h
    · exfalso
      have hw0 := dictGet_weightsList (positionsNav holdings prices + cash) hnd he hp
      rw [hw0] at hwgt
      simp [← heq] at hwgt
      exact absurd hwgt (not_lt.mpr hmw)
    · exact h
  have hdnn := (desired_nonneg_le hmw hpos hppos e.2).1
  have hdle2 := (desired_nonneg_le hmw hpos hppos e.2).2
  set D := desiredAbsShares maxW (positionsNav holdings prices + cash) p e.2 with hD
  set W := (dictGet (weightsList holdings prices (positionsNav holdings prices + cash)) e.1).getD 0
    with hW
  have hNpos : (0 : ℚ) < ((positionsNav holdings prices + cash : ℤ) : ℚ) := by
    exact_mod_cast hpos
  have hcore : |((p * D : ℤ) : ℚ) / ((positionsNav holdings prices + cash : ℤ) : ℚ)| ≤ maxW := by
    rw [abs_div, abs_of_nonneg (show (0 : ℚ) ≤ ((p * D : ℤ) : ℚ) by
        exact_mod_cast mul_nonneg hppos.le hdnn),
      abs_of_pos hNpos, div_le_iff₀ hNpos]
    push_cast
    push_cast at hdle2
    linarith
  rcases hne.lt_or_lt with hneg | hposs
  · have htty : (if e.2 > 0 then "SELL" else "BUY") = "BUY" := if_neg (not_lt.mpr hneg.le)
    have hnew : newShares ⟨e.1, if e.2 > 0 then "SELL" else "BUY", |e.2| - D, p, W, maxW⟩ e.2 =
        -D := by
      rw [newShares]
      simp only [htty]
      rw [if_neg (by decide : ¬ ("BUY" : String) = "SELL"), abs_of_neg hneg]
      ring
    have hnc : newCash ⟨e.1, if e.2 > 0 then "SELL" else "BUY", |e.2| - D, p, W, maxW⟩ cash =
        cash - (|e.2| - D) * p := by
      rw [newCash]
      simp only [htty]
      rw [if_neg (by decide : ¬ ("BUY" : String) = "SELL")]
    simp only [hnew, hnc]
    rw [positionsNav_setShares hnd he hp]
    rw [abs_of_neg hneg]
    rw [show positionsNav holdings prices + p * (-D - e.2) + (cash - (-e.2 - D) * p) =
        positionsNav holdings prices + cash from by ring]
    rw [show (p * -D : ℤ) = -(p * D) from by ring]
    rw [Int.cast_neg, neg_div, abs_neg]
    exact hcore
  · have htty : (if e.2 > 0 then "SELL" else "BUY") = "SELL" := if_pos hposs
    have hnew : newShares ⟨e.1, if e.2 > 0 then "SELL" else "BUY", |e.2| - D, p, W, maxW⟩ e.2 =
        D := by
      rw [newShares]
      simp only [htty, if_true]
      rw [abs_of_pos hposs]
      ring
    have hnc : newCash ⟨e.1, if e.2 > 0 then "SELL" else "BUY", |e.2| - D, p, W, maxW⟩ cash =
        cash + (|e.2| - D) * p := by
      rw [newCash]
      simp only [htty, if_true]
    simp only [hnew, hnc]
    rw [positionsNav_setShares hnd he hp]
    rw [abs_of_pos hposs]
    rw [show positionsNav holdings prices + p * (D - e.2) + (cash + (e.2 - D) * p) =
        positionsNav holdings prices + cash from by ring]
    exact hcore

theorem C1_witness :
    |(((⟨"A", "SELL", 1, 100, 1, 0.15⟩ : TradeProposal).priceCents *
        newShares ⟨"A", "SELL", 1, 100, 1, 0.15⟩ 1 : ℤ) : ℚ) /
      ((positionsNav (setShares [("A", 1)] (⟨"A", "SELL", 1, 100, 1, 0.15⟩ : TradeProposal).ticker
          (newShares ⟨"A", "SELL", 1, 100, 1, 0.15⟩ 1)) [("A", 100)] +
          newCash ⟨"A", "SELL", 1, 100, 1, 0.15⟩ 0 : ℤ) : ℚ)| ≤ (0.15 : ℚ) := by
  apply C1_boundary_idempotence [("A", 1)] 0 [("A", 100)] (0.15 : ℚ)
    (by decide) (by decide) (by norm_num)
  · rw [build_eval_single_share]
    simp [tradesOf]
  · rfl

/-! ## Helper lemmas: cutoff monotonicity -/

theorem foldl_applyValidTx_cash : ∀ (txs : List Transaction) (st : RState),
    (txs.foldl applyValidTx st).2 = st.2 + (txs.map (fun tx =>
      if txValid tx = true then cashDelta tx else 0)).sum
  | [], st => by simp
  | tx :: rest, st => by
    rw [List.foldl_cons, foldl_applyValidTx_cash rest, applyValidTx_char]
    by_cases hv : txValid tx
    · simp [hv]
      ring
    · simp [hv]

theorem foldl_applyValidTx_shares (t : String) : ∀ (txs : List Transaction) (st : RState),
    getOrZero (txs.foldl applyValidTx st).1 t = getOrZero st.1 t + (txs.map (fun tx =>
      if txValid tx = true ∧ tx.ticker.getD "" = t then sharesDelta tx else 0)).sum
  | [], st => by simp
  | tx :: rest, st => by
    rw [List.foldl_cons, foldl_applyValidTx_shares t rest, applyValidTx_char]
    by_cases hv : txValid tx
    · rw [if_pos hv, getOrZero_dictAdd]
      by_cases ht : t = tx.ticker.getD ""
      · simp [hv, ht]
        ring
      · simp [hv, ht, Ne.symm ht]
    · simp [hv]

theorem sum_map_add_int {α : Type} (l : List α) (f g : α → ℤ) :
    (l.map fun x => f x + g x).sum = (l.map f).sum + (l.map g).sum := by
  induction l with
  | nil => simp
  | cons a l ih =>
    simp [ih]
    ring

theorem sum_filter_map_eq {α : Type} (pred : α → Bool) (f : α → ℤ) :
    ∀ l : List α, ((l.filter pred).map f).sum =
      (l.map fun x => if pred x = true then f x else 0).sum
  | [] => by simp
  | a :: l => by
    by_cases hp : pred a = true <;>
      simp [List.filter_cons, hp, sum_filter_map_eq pred f l]


theorem ite_push (A C : Prop) [Decidable A] [Decidable C] (d : ℤ) :
    (if A ∧ C then d else 0) = if A then (if C then d else 0) else 0 := by
  by_cases hA : A <;> by_cases hC : C <;> simp [hA, hC]

theorem cutoff_split {D1 D2 : String} (h12 : D1 < D2) (tx : Transaction) (b : ℤ) :
    (if dateSkip D2 tx = false then b else 0) =
      (if dateSkip D1 tx = false then b else 0) +
      (if (truthy tx.date && strLtb D1 (tx.date.getD "") && !strLtb D2 (tx.date.getD "")) = true
        then b else 0) := by
  by_cases ht : truthy tx.date = true
  · by_cases h2 : strLtb D2 (tx.date.getD "") = true
    · have h1 : strLtb D1 (tx.date.getD "") = true := by
        rw [strLtb_iff] at h2 ⊢
        exact lt_trans h12 h2
      simp [dateSkip, ht, h1, h2]
    · by_cases h1 : strLtb D1 (tx.date.getD "") = true
      · simp [dateSkip, ht, h1, h2]
      · simp [dateSkip, ht, h1, h2]
  · simp [dateSkip, ht]

/-- C8: cutoff monotonicity — replaying with the later cutoff `D2` gives
the same cash and the same per-ticker counts as replaying with cutoff `D1`
and then applying exactly the transactions whose (truthy) date lies
strictly after `D1` and not after `D2`. -/
theorem C8_cutoff_monotonicity (start : ℤ) (txs : List Transaction) (D1 D2 : String)
    (h12 : D1 < D2) (t : String) :
    (compute_holdings_and_cash start txs (some D2)).2 =
      ((txs.filter (fun tx => truthy tx.date && strLtb D1 (tx.date.getD "") &&
          !strLtb D2 (tx.date.getD ""))).foldl applyValidTx
        (compute_holdings_and_cash start txs (some D1))).2 ∧
    getOrZero (compute_holdings_and_cash start txs (some D2)).1 t =
      getOrZero ((txs.filter (fun tx => truthy tx.date && strLtb D1 (tx.date.getD "") &&
          !strLtb D2 (tx.date.getD ""))).foldl applyValidTx
        (compute_holdings_and_cash start txs (some D1))).1 t := by
  have hfn : ∀ c : String, applyTx c = stepWith (dateSkip c) := fun c =>
    funext fun st => funext fun tx => rfl
  simp only [compute_holdings_and_cash, Option.getD_some]
  rw [hfn D1, hfn D2]
  constructor
  · rw [foldl_stepWith_cash, foldl_applyValidTx_cash, foldl_stepWith_cash,
      sum_filter_map_eq]
    have hsum : (txs.map (fun tx =>
        if dateSkip D2 tx = false ∧ txValid tx = true then cashDelta tx else 0)).sum =
      (txs.map (fun tx =>
        if dateSkip D1 tx = false ∧ txValid tx = true then cashDelta tx else 0)).sum +
      (txs.map (fun tx =>
        if (truthy tx.date && strLtb D1 (tx.date.getD "") &&
            !strLtb D2 (tx.date.getD "")) = true
        then (if txValid tx = true then cashDelta tx else 0) else 0)).sum := by
      rw [← sum_map_add_int]
      apply congrArg List.sum
      apply List.map_congr_left
      intro tx _
      rw [ite_push (dateSkip D2 tx = false) (txValid tx = true) (cashDelta tx),
        ite_push (dateSkip D1 tx = false) (txValid tx = true) (cashDelta tx)]
      exact cutoff_split h12 tx (if txValid tx = true then cashDelta tx else 0)
    rw [hsum]
    ring
  · rw [foldl_stepWith_shares, foldl_applyValidTx_shares, foldl_stepWith_shares,
      sum_filter_map_eq]
    have hsum : (txs.map (fun tx =>
        if dateSkip D2 tx = false ∧ txValid tx = true ∧ tx.ticker.getD "" = t
        then sharesDelta tx else 0)).sum =
      (txs.map (fun tx =>
        if dateSkip D1 tx = false ∧ txValid tx = true ∧ tx.ticker.getD "" = t
        then sharesDelta tx else 0)).sum +
      (txs.map (fun tx =>
        if (truthy tx.date && strLtb D1 (tx.date.getD "") &&
            !strLtb D2 (tx.date.getD "")) = true
        then (if txValid tx = true ∧ tx.ticker.getD "" = t then sharesDelta tx else 0)
        else 0)).sum := by
      rw [← sum_map_add_int]
      apply congrArg List.sum
      apply List.map_congr_left
      intro tx _
      rw [ite_push (dateSkip D2 tx = false) (txValid tx = true ∧ tx.ticker.getD "" = t)
          (sharesDelta tx),
        ite_push (dateSkip D1 tx = false) (txValid tx = true ∧ tx.ticker.getD "" = t)
          (sharesDelta tx)]
      exact cutoff_split h12 tx
        (if txValid tx = true ∧ tx.ticker.getD "" = t then sharesDelta tx else 0)
    rw [hsum]
    ring

theorem C8_witness :
    (compute_holdings_and_cash 0
        [⟨some "2024-02-01", some "A", some "BUY", 1, 10⟩,
         ⟨some "2024-07-01", some "A", some "BUY", 2, 10⟩] (some "2024-12-31")).2 =
      (([⟨some "2024-02-01", some "A", some "BUY", 1, 10⟩,
         ⟨some "2024-07-01", some "A", some "BUY", 2, 10⟩].filter
          (fun tx => truthy tx.date && strLtb "2024-06-30" (tx.date.getD "") &&
            !strLtb "2024-12-31" (tx.date.getD ""))).foldl applyValidTx
        (compute_holdings_and_cash 0
          [⟨some "2024-02-01", some "A", some "BUY", 1, 10⟩,
           ⟨some "2024-07-01", some "A", some "BUY", 2, 10⟩] (some "2024-06-30"))).2 ∧
    getOrZero (compute_holdings_and_cash 0
        [⟨some "2024-02-01", some "A", some "BUY", 1, 10⟩,
         ⟨some "2024-07-01", some "A", some "BUY", 2, 10⟩] (some "2024-12-31")).1 "A" =
      getOrZero (([⟨some "2024-02-01", some "A", some "BUY", 1, 10⟩,
         ⟨some "2024-07-01", some "A", some "BUY", 2, 10⟩].filter
          (fun tx => truthy tx.date && strLtb "2024-06-30" (tx.date.getD "") &&
            !strLtb "2024-12-31" (tx.date.getD ""))).foldl applyValidTx
        (compute_holdings_and_cash 0
          [⟨some "2024-02-01", some "A", some "BUY", 1, 10⟩,
           ⟨some "2024-07-01", some "A", some "BUY", 2, 10⟩] (some "2024-06-30"))).1 "A" :=
  C8_cutoff_monotonicity 0
    [⟨some "2024-02-01", some "A", some "BUY", 1, 10⟩,
     ⟨some "2024-07-01", some "A", some "BUY", 2, 10⟩] "2024-06-30" "2024-12-31"
    (by rw [← strLtb_iff]; decide) "A"
